import Mathlib

set_option linter.unusedVariables false
set_option maxRecDepth 10000

/-!
Verification of the distributed matrix multiplication program
(`user/matmul.c`): the work partitioner, the row compute kernel, the
serial reference computation, the coordinator's collection/reassembly
loop, and the result verifier, embedded as pure Lean functions.

Matrices are modelled as functions `Nat → Nat → Int` (the C program uses
global `int [N][N]` arrays; only indices below `N` are ever read or
written).  The matrix size `N` and process count `P` are compile-time
macros in the source; here they are explicit parameters, instantiated at
`10` and `4` for the concrete claims.
-/

namespace Matmul

/-- Embeds `get_work_range` (matmul.c lines 107-118): `base_rows = N / P`,
`extra_rows = N % P`; the first `extra_rows` processes get `base_rows + 1`
rows, the rest get `base_rows` rows.  Returns the half-open row interval
`(start, end)` assigned to `process_id`. -/
def get_work_range (N P process_id : Nat) : Nat × Nat :=
  let base_rows := N / P
  let extra_rows := N % P
  if process_id < extra_rows then
    let start := process_id * (base_rows + 1)
    (start, start + (base_rows + 1))
  else
    let start := extra_rows * (base_rows + 1) + (process_id - extra_rows) * base_rows
    (start, start + base_rows)

/-- Embeds the `A` initialization of `init_matrices` (line 39):
`A[i][j] = i + j + 1`. -/
def A_init (i j : Nat) : Int := (i : Int) + (j : Int) + 1

/-- Embeds the `B` initialization of `init_matrices` (line 40):
`B[i][j] = (i == j) ? 2 : 1`. -/
def B_init (i j : Nat) : Int := if i = j then 2 else 1

/-- The inner accumulation loop shared, textually identically, by the
serial reference (lines 53-56) and each child's compute loop (lines
176-179): `sum = 0; for k in [0,N): sum += A[r][k] * B[k][c]`. -/
def dot (A B : Nat → Nat → Int) (N r c : Nat) : Int :=
  (List.range N).foldl (fun sum k => sum + A r k * B k c) 0

/-- Embeds `multiply_reference` (lines 49-60): `C_ref[i][j]` is the dot
accumulation for every `i, j` in `[0,N)`. -/
def multiply_reference (N : Nat) (A B : Nat → Nat → Int) : Nat → Nat → Int :=
  fun i j => dot A B N i j

/-- Embeds the child's output buffer construction (lines 170-182): the
`(end-start)*N` computed values, row-major, `outbuf[(r-start)*N + c] =
dot r c` for `r` in `[start,end)`, `c` in `[0,N)`. -/
def worker_outbuf (N P : Nat) (A B : Nat → Nat → Int) (i : Nat) : List Int :=
  let s := (get_work_range N P i).1
  let e := (get_work_range N P i).2
  ((List.range (e - s)).map (fun ro => (List.range N).map (fun c => dot A B N (s + ro) c))).flatten

/-- A single element store `M[r][c] = v`, the effect of one iteration of
the coordinator's copy loop body (line 229). -/
def updateM (M : Nat → Nat → Int) (r c : Nat) (v : Int) : Nat → Nat → Int :=
  fun i j => if i = r ∧ j = c then v else M i j

/-- Embeds the coordinator's deserialization loop (lines 226-231):
`idx = 0; for r in [start,end): for c in [0,N): C[r][c] = inbuf[idx++]`. -/
def copy_block (N s e : Nat) (buf : List Int) (C : Nat → Nat → Int) : Nat → Nat → Int :=
  (List.range (e - s)).foldl
    (fun M ro =>
      (List.range N).foldl (fun M2 c => updateM M2 (s + ro) c (buf.getD (ro * N + c) 0)) M)
    C

/-- Embeds `compare_results` (lines 80-90): scans all `N*N` positions in
row-major order and returns `1` at the first position where `C` and
`C_ref` differ (the early `return 1`), `0` if none differs. -/
def compare_results (N : Nat) (C Cr : Nat → Nat → Int) : Nat :=
  if (List.range N).any (fun i => (List.range N).any (fun j => C i j != Cr i j)) then 1 else 0

/-- The global result matrix `C` before any collection: C global arrays
are zero-initialized (line 28). -/
def zeroM : Nat → Nat → Int := fun _ _ => 0

/-- Expected element count for worker `i`'s block, `(end-start)*N`
(line 207; the byte count of line 208 is this times `sizeof(int)`). -/
def expected_count (N P i : Nat) : Nat :=
  ((get_work_range N P i).2 - (get_work_range N P i).1) * N

/-- Models the coordinator's read loop for one worker (lines 215-223)
at the pipe boundary: `delivered` is the element stream the worker's pipe
yields before end-of-stream, `junk` the prior (uninitialized) contents of
`inbuf`.  The loop accumulates until `expected` elements are in, or
breaks with a printed failure when `read` returns `<= 0` early; the first
component is that failure flag, the second is `inbuf` afterwards: the
delivered data followed by untouched buffer contents. -/
def read_loop (expected : Nat) (delivered : List Int) (junk : Nat → Int) :
    Bool × List Int :=
  (decide (delivered.length < expected),
   (List.range expected).map (fun idx => delivered.getD idx (junk idx)))

/-- One iteration of the coordinator's collection loop body for worker
`i` (lines 202-233): run the read loop, then copy the buffer into `C` at
this worker's rows.  Returns the failure flag and the updated `C`;
note the source copies `inbuf` into `C` even after a short read. -/
def collect_worker (N P i : Nat) (delivered : List Int) (junk : Nat → Int)
    (C : Nat → Nat → Int) : Bool × (Nat → Nat → Int) :=
  let s := (get_work_range N P i).1
  let e := (get_work_range N P i).2
  let rl := read_loop ((e - s) * N) delivered junk
  (rl.1, copy_block N s e rl.2 C)

/-- The coordinator's whole collection loop (lines 202-234) over workers
`0..P-1`, threading `C` from the zero matrix and recording each worker's
failure flag. -/
def collect_all (N P : Nat) (delivered : Nat → List Int) (junk : Nat → Nat → Int) :
    (Nat → Bool) × (Nat → Nat → Int) :=
  (List.range P).foldl
    (fun acc i =>
      (fun j => if j = i then (collect_worker N P i (delivered i) (junk i) acc.2).1 else acc.1 j,
       (collect_worker N P i (delivered i) (junk i) acc.2).2))
    (fun _ => false, zeroM)

/-- The distributed result matrix `C` on the fault-free path: every
worker's pipe delivers its full output buffer (lines 174-194 on the child
side, 202-234 on the parent side).  The `junk` argument of the read loop
is then irrelevant; it is fixed to zero. -/
def distributed_C (N P : Nat) (A B : Nat → Nat → Int) : Nat → Nat → Int :=
  (collect_all N P (fun i => worker_outbuf N P A B i) (fun _ _ => 0)).2

/-- Models the child's write loop (lines 185-194) on the channel
boundary: `accept it` is how many elements the pipe accepts at iteration
`it` (a `write` return of `0` models `w <= 0`).  Returns `true` exactly
when the loop breaks with the printed failure before `remaining` reaches
zero. -/
def write_loop (accept : Nat → Nat) (it remaining : Nat) : Bool :=
  if _h : remaining = 0 then false
  else
    match accept it with
    | 0 => true
    | (w + 1) => write_loop accept (it + 1) (remaining - (w + 1))
termination_by remaining
decreasing_by omega

/-- Two's-complement truncation to a 32-bit signed integer: the value a C
`int` holds after an arithmetic operation. -/
def toInt32 (x : Int) : Int := (x + 2 ^ 31) % 2 ^ 32 - 2 ^ 31

/-- The accumulation loop of `dot` with every multiply and add truncated
to 32-bit `int`, as the C program's `int sum` accumulator actually
computes it (lines 53-56 and 176-179). -/
def dot32 (A B : Nat → Nat → Int) (N r c : Nat) : Int :=
  (List.range N).foldl (fun sum k => toInt32 (sum + toInt32 (A r k * B k c))) 0

/-- Closed form of the cumulative row offset of `get_work_range`: worker
`i`'s block starts at `i * (N / P) + min i (N % P)`. -/
def block_start (N P i : Nat) : Nat := i * (N / P) + min i (N % P)

/-- Number of rows assigned to worker `i`. -/
def range_size (N P i : Nat) : Nat :=
  (get_work_range N P i).2 - (get_work_range N P i).1

theorem get_work_range_eq (N P i : Nat) :
    get_work_range N P i = (block_start N P i, block_start N P (i + 1)) := by
  unfold get_work_range block_start
  by_cases h : i < N % P
  · have h1 : min i (N % P) = i := Nat.min_eq_left h.le
    have h2 : min (i + 1) (N % P) = i + 1 := Nat.min_eq_left h
    simp only [if_pos h, h1, h2, Prod.mk.injEq]
    constructor <;> ring
  · obtain ⟨d, hd⟩ := Nat.exists_eq_add_of_le (Nat.le_of_not_lt h)
    subst hd
    have h1 : min (N % P + d) (N % P) = N % P := Nat.min_eq_right (Nat.le_add_right _ _)
    have h2 : min (N % P + d + 1) (N % P) = N % P := by
      exact Nat.min_eq_right (Nat.le_add_right_of_le (Nat.le_add_right _ _))
    simp only [if_neg h, h1, h2, Nat.add_sub_cancel_left, Prod.mk.injEq]
    constructor <;> ring

theorem block_start_mono (N P : Nat) {i j : Nat} (hij : i ≤ j) :
    block_start N P i ≤ block_start N P j :=
  Nat.add_le_add (Nat.mul_le_mul_right _ hij) (min_le_min hij le_rfl)

theorem block_start_zero (N P : Nat) : block_start N P 0 = 0 := by
  simp [block_start]

theorem block_start_last (N P : Nat) (hP : 0 < P) : block_start N P P = N := by
  unfold block_start
  rw [Nat.min_eq_right (Nat.mod_lt N hP).le, Nat.div_add_mod]

/-- For a cumulative offset function starting at `0`, every value below
the final offset falls in exactly one consecutive slot. -/
theorem exists_crossing (g : Nat → Nat) (r : Nat) (h0 : g 0 = 0) :
    ∀ k, r < g k → ∃ i, i < k ∧ g i ≤ r ∧ r < g (i + 1)
  | 0, hk => absurd hk (by omega)
  | (k + 1), hk => by
    by_cases h : g k ≤ r
    · exact ⟨k, Nat.lt_succ_self k, h, hk⟩
    · obtain ⟨i, hi, h1, h2⟩ := exists_crossing g r h0 k (Nat.lt_of_not_le h)
      exact ⟨i, Nat.lt_succ_of_lt hi, h1, h2⟩

theorem exists_worker (N P r : Nat) (hP : 0 < P) (hr : r < N) :
    ∃ i, i < P ∧ (get_work_range N P i).1 ≤ r ∧ r < (get_work_range N P i).2 := by
  obtain ⟨i, hi, h1, h2⟩ :=
    exists_crossing (block_start N P) r (block_start_zero N P) P
      (by rw [block_start_last N P hP]; exact hr)
  exact ⟨i, hi, by rw [get_work_range_eq]; exact ⟨h1, h2⟩⟩

theorem range_in_bounds (N P i r : Nat) (hP : 0 < P) (hi : i < P)
    (_h1 : (get_work_range N P i).1 ≤ r) (h2 : r < (get_work_range N P i).2) : r < N := by
  rw [get_work_range_eq] at h2
  calc r < block_start N P (i + 1) := h2
    _ ≤ block_start N P P := block_start_mono N P hi
    _ = N := block_start_last N P hP

theorem ranges_disjoint (N P i j r : Nat) (hij : i ≠ j)
    (h1 : (get_work_range N P i).1 ≤ r) (h2 : r < (get_work_range N P i).2) :
    ¬ ((get_work_range N P j).1 ≤ r ∧ r < (get_work_range N P j).2) := by
  rintro ⟨h3, h4⟩
  rw [get_work_range_eq] at h1 h2 h3 h4
  rcases Nat.lt_or_ge i j with h | h
  · exact absurd (h2.trans_le ((block_start_mono N P h).trans h3)) (Nat.lt_irrefl r)
  · have hji : j < i := by omega
    exact absurd (h4.trans_le ((block_start_mono N P hji).trans h1)) (Nat.lt_irrefl r)

/-- C2: for all `N` and `P > 0`, the row ranges produced by
`get_work_range` for worker indices `0..P-1` are pairwise disjoint
half-open intervals whose union is exactly `[0, N)`. -/
theorem partition_disjoint_union (N P : Nat) (hP : 0 < P) :
    (∀ i j, i < P → j < P → i ≠ j → ∀ r,
        (get_work_range N P i).1 ≤ r ∧ r < (get_work_range N P i).2 →
        ¬ ((get_work_range N P j).1 ≤ r ∧ r < (get_work_range N P j).2)) ∧
    (∀ r, r < N ↔
        ∃ i, i < P ∧ (get_work_range N P i).1 ≤ r ∧ r < (get_work_range N P i).2) := by
  constructor
  · intro i j _ _ hij r hr
    exact ranges_disjoint N P i j r hij hr.1 hr.2
  · intro r
    constructor
    · exact exists_worker N P r hP
    · rintro ⟨i, hi, h1, h2⟩
      exact range_in_bounds N P i r hP hi h1 h2

theorem partition_disjoint_union_witness :
    0 < 4 ∧
    ((∀ i j, i < 4 → j < 4 → i ≠ j → ∀ r,
        (get_work_range 10 4 i).1 ≤ r ∧ r < (get_work_range 10 4 i).2 →
        ¬ ((get_work_range 10 4 j).1 ≤ r ∧ r < (get_work_range 10 4 j).2)) ∧
    (∀ r, r < 10 ↔
        ∃ i, i < 4 ∧ (get_work_range 10 4 i).1 ≤ r ∧ r < (get_work_range 10 4 i).2)) :=
  ⟨by decide, partition_disjoint_union 10 4 (by decide)⟩

theorem range_size_eq (N P i : Nat) :
    range_size N P i = N / P + (if i < N % P then 1 else 0) := by
  obtain ⟨b, hb⟩ : ∃ b, N / P = b := ⟨_, rfl⟩
  obtain ⟨e, he⟩ : ∃ e, N % P = e := ⟨_, rfl⟩
  simp only [range_size, get_work_range_eq, block_start, hb, he]
  by_cases h : i < e
  · rw [if_pos h, Nat.min_eq_left h.le, Nat.min_eq_left (Nat.succ_le_of_lt h), Nat.succ_mul]
    omega
  · rw [if_neg h, Nat.min_eq_right (Nat.le_of_not_lt h),
      Nat.min_eq_right (by omega : e ≤ i + 1), Nat.succ_mul]
    omega

/-- C3: for all `N` and `P > 0`, range sizes differ pairwise by at most
one row, and every range with index below `N % P` is at least as large as
every range with index at or above `N % P`. -/
theorem partition_balanced (N P : Nat) (hP : 0 < P) :
    ∀ i j, i < P → j < P →
      range_size N P i ≤ range_size N P j + 1 ∧
      (i < N % P → N % P ≤ j → range_size N P j ≤ range_size N P i) := by
  intro i j _ _
  rw [range_size_eq, range_size_eq]
  constructor
  · split <;> split <;> omega
  · intro h1 h2
    rw [if_pos h1, if_neg (Nat.not_lt.mpr h2)]
    omega

theorem partition_balanced_witness :
    0 < 4 ∧
    (∀ i j, i < 4 → j < 4 →
      range_size 10 4 i ≤ range_size 10 4 j + 1 ∧
      (i < 10 % 4 → 10 % 4 ≤ j → range_size 10 4 j ≤ range_size 10 4 i)) :=
  ⟨by decide, partition_balanced 10 4 (by decide)⟩

/-- The accumulation loop computes the mathematical sum
`Σ_{k=0}^{N-1} A[r][k] * B[k][c]`. -/
theorem dot_eq_sum (A B : Nat → Nat → Int) (N r c : Nat) :
    dot A B N r c = ∑ k ∈ Finset.range N, A r k * B k c := by
  induction N with
  | zero => rfl
  | succ n ih =>
    rw [dot, List.range_succ, List.foldl_append, Finset.sum_range_succ, ← dot, ih]
    rfl

/-- Indexing a row-major flattened block of rows: the element at
`i * n + j` of the concatenation of rows `g s, g (s+1), ...` (each of
length `n`) is `g (s + i) j`. -/
theorem flatten_map_getD (g : Nat → Nat → Int) (n : Nat) :
    ∀ (m s i j : Nat), i < m → j < n →
      (((List.range' s m).map (fun r => (List.range n).map (g r))).flatten).getD (i * n + j) 0
        = g (s + i) j
  | 0, s, i, j, hi, _ => absurd hi (Nat.not_lt_zero i)
  | (m + 1), s, i, j, hi, hj => by
    rw [List.range'_succ, List.map_cons, List.flatten_cons]
    have hlen : ((List.range n).map (g s)).length = n := by simp
    rcases i with _ | i
    · simp only [Nat.zero_mul, Nat.zero_add, Nat.add_zero]
      rw [List.getD_append _ _ _ _ (by rw [hlen]; exact hj),
        List.getD_eq_getElem _ _ (by rw [hlen]; exact hj), List.getElem_map, List.getElem_range]
    · rw [Nat.succ_mul]
      have hge : ((List.range n).map (g s)).length ≤ i * n + n + j := by rw [hlen]; omega
      rw [List.getD_append_right _ _ _ _ hge, hlen]
      have harg : i * n + n + j - n = i * n + j := by omega
      rw [harg, flatten_map_getD g n m (s + 1) i j (Nat.lt_of_succ_lt_succ hi) hj]
      have : s + 1 + i = s + (i + 1) := by omega
      rw [this]

/-- Entry `(r - start) * N + c` of worker `i`'s output buffer is the dot
accumulation for row `r`, column `c`. -/
theorem worker_outbuf_getD (N P : Nat) (A B : Nat → Nat → Int) (i r c : Nat)
    (h1 : (get_work_range N P i).1 ≤ r) (h2 : r < (get_work_range N P i).2) (hc : c < N) :
    (worker_outbuf N P A B i).getD ((r - (get_work_range N P i).1) * N + c) 0
      = dot A B N r c := by
  simp only [worker_outbuf]
  rw [show List.range ((get_work_range N P i).2 - (get_work_range N P i).1)
      = List.range' 0 ((get_work_range N P i).2 - (get_work_range N P i).1) from
    List.range_eq_range' _]
  rw [flatten_map_getD (fun ro c2 => dot A B N ((get_work_range N P i).1 + ro) c2) N
    ((get_work_range N P i).2 - (get_work_range N P i).1) 0
    (r - (get_work_range N P i).1) c (by omega) hc]
  have : (get_work_range N P i).1 + (0 + (r - (get_work_range N P i).1)) = r := by omega
  rw [this]

/-- The length of worker `i`'s output buffer is `(end-start)*N`
(`out_count`, line 170). -/
theorem worker_outbuf_length (N P : Nat) (A B : Nat → Nat → Int) (i : Nat) :
    (worker_outbuf N P A B i).length = expected_count N P i := by
  simp only [worker_outbuf, expected_count, List.length_flatten, List.map_map]
  have : (List.map (List.length ∘ fun ro => (List.range N).map
      (fun c => dot A B N ((get_work_range N P i).1 + ro) c))
      (List.range ((get_work_range N P i).2 - (get_work_range N P i).1)))
      = List.map (Function.const Nat N)
        (List.range ((get_work_range N P i).2 - (get_work_range N P i).1)) := by
    apply List.map_congr_left
    intro x _
    simp
  rw [this, List.map_const, List.sum_replicate, List.length_range, smul_eq_mul, Nat.mul_comm]

/-- The inner copy loop for one row leaves every other row unchanged. -/
theorem inner_foldl_frame (row : Nat) (v : Nat → Int) :
    ∀ (l : List Nat) (M : Nat → Nat → Int) (r c : Nat), r ≠ row →
      (l.foldl (fun M2 c2 => updateM M2 row c2 (v c2)) M) r c = M r c
  | [], M, r, c, h => rfl
  | (x :: l), M, r, c, h => by
    rw [List.foldl_cons, inner_foldl_frame row v l _ r c h]
    simp [updateM, h]

/-- The inner copy loop leaves columns it does not visit unchanged. -/
theorem inner_foldl_col_frame (row : Nat) (v : Nat → Int) :
    ∀ (l : List Nat) (M : Nat → Nat → Int) (r c : Nat), c ∉ l →
      (l.foldl (fun M2 c2 => updateM M2 row c2 (v c2)) M) r c = M r c
  | [], M, r, c, h => rfl
  | (x :: l), M, r, c, h => by
    have hx : c ≠ x := fun hcx => h (hcx ▸ List.mem_cons_self x l)
    rw [List.foldl_cons, inner_foldl_col_frame row v l _ r c (fun hc => h (List.mem_cons_of_mem x hc))]
    simp [updateM, hx]

/-- After the inner copy loop over columns `0..n-1`, column `c < n` of
`row` holds the copied value. -/
theorem inner_foldl_write (row : Nat) (v : Nat → Int) (n c : Nat) (hc : c < n)
    (M : Nat → Nat → Int) :
    ((List.range n).foldl (fun M2 c2 => updateM M2 row c2 (v c2)) M) row c = v c := by
  have hsplit : List.range n = List.range' 0 c ++ c :: List.range' (c + 1) (n - (c + 1)) := by
    rw [List.range_eq_range',
      show c :: List.range' (c + 1) (n - (c + 1)) = List.range' c (n - (c + 1) + 1) from
        (List.range'_succ c (n - (c + 1)) 1).symm,
      show List.range' c (n - (c + 1) + 1) = List.range' (0 + 1 * c) (n - (c + 1) + 1) by
        rw [Nat.one_mul, Nat.zero_add],
      List.range'_append]
    congr 1
    omega
  rw [hsplit, List.foldl_append, List.foldl_cons]
  rw [inner_foldl_col_frame row v _ _ row c
    (by rw [List.mem_range'_1]; omega)]
  simp [updateM]

/-- The coordinator's copy loop leaves every row it does not own
unchanged. -/
theorem outer_foldl_frame (N s : Nat) (buf : List Int) :
    ∀ (l : List Nat) (C : Nat → Nat → Int) (r c : Nat), (∀ ro ∈ l, r ≠ s + ro) →
      (l.foldl
        (fun M ro =>
          (List.range N).foldl (fun M2 c2 => updateM M2 (s + ro) c2 (buf.getD (ro * N + c2) 0)) M)
        C) r c = C r c
  | [], C, r, c, h => rfl
  | (x :: l), C, r, c, h => by
    rw [List.foldl_cons,
      outer_foldl_frame N s buf l _ r c (fun ro hro => h ro (List.mem_cons_of_mem x hro)),
      inner_foldl_frame (s + x) _ _ _ r c (h x (List.mem_cons_self x l))]

/-- C9 core, frame part: `copy_block` for the block `[s, e)` leaves every
row outside `[s, e)` unchanged. -/
theorem copy_block_frame (N s e : Nat) (buf : List Int) (C : Nat → Nat → Int) (r c : Nat)
    (h : r < s ∨ e ≤ r) : copy_block N s e buf C r c = C r c := by
  unfold copy_block
  exact outer_foldl_frame N s buf (List.range (e - s)) C r c
    (fun ro hro => by rw [List.mem_range] at hro; omega)

/-- C9 core, write part: `copy_block` stores `buf[(r-s)*N + c]` at every
cell `(r, c)` of the block `[s, e) × [0, N)`. -/
theorem copy_block_write (N s e : Nat) (buf : List Int) (C : Nat → Nat → Int) (r c : Nat)
    (h1 : s ≤ r) (h2 : r < e) (hc : c < N) :
    copy_block N s e buf C r c = buf.getD ((r - s) * N + c) 0 := by
  unfold copy_block
  have hsplit : List.range (e - s)
      = List.range' 0 (r - s) ++ (r - s) :: List.range' (r - s + 1) (e - s - (r - s + 1)) := by
    rw [List.range_eq_range',
      show (r - s) :: List.range' (r - s + 1) (e - s - (r - s + 1))
          = List.range' (r - s) (e - s - (r - s + 1) + 1) from
        (List.range'_succ (r - s) (e - s - (r - s + 1)) 1).symm,
      show List.range' (r - s) (e - s - (r - s + 1) + 1)
          = List.range' (0 + 1 * (r - s)) (e - s - (r - s + 1) + 1) by
        rw [Nat.one_mul, Nat.zero_add],
      List.range'_append]
    congr 1
    omega
  rw [hsplit, List.foldl_append, List.foldl_cons]
  rw [outer_foldl_frame N s buf _ _ r c
    (fun ro hro => by rw [List.mem_range'_1] at hro; omega)]
  have hrow : s + (r - s) = r := by omega
  rw [hrow]
  exact inner_foldl_write r _ N c hc _

/-- Splitting an index list at one element. -/
theorem range_split (P i : Nat) (hi : i < P) :
    List.range P = List.range' 0 i ++ i :: List.range' (i + 1) (P - (i + 1)) := by
  rw [List.range_eq_range',
    show i :: List.range' (i + 1) (P - (i + 1)) = List.range' i (P - (i + 1) + 1) from
      (List.range'_succ i (P - (i + 1)) 1).symm,
    show List.range' i (P - (i + 1) + 1) = List.range' (0 + 1 * i) (P - (i + 1) + 1) by
      rw [Nat.one_mul, Nat.zero_add],
    List.range'_append]
  congr 1
  omega

/-- The matrix component of a paired fold whose second component evolves
independently of the first. -/
theorem foldl_pair_snd {α β ι : Type} (f : α × β → ι → α) (g : β → ι → β) :
    ∀ (l : List ι) (p : α × β),
      (l.foldl (fun acc i => (f acc i, g acc.2 i)) p).2 = l.foldl g p.2
  | [], p => rfl
  | (x :: l), p => by
    rw [List.foldl_cons, List.foldl_cons]
    exact foldl_pair_snd f g l _

theorem collect_all_snd (N P : Nat) (delivered : Nat → List Int) (junk : Nat → Nat → Int) :
    (collect_all N P delivered junk).2
      = (List.range P).foldl
          (fun C i => (collect_worker N P i (delivered i) (junk i) C).2) zeroM := by
  unfold collect_all
  exact foldl_pair_snd
    (fun (acc : (Nat → Bool) × (Nat → Nat → Int)) (i : Nat) => fun j =>
      if j = i then (collect_worker N P i (delivered i) (junk i) acc.2).1 else acc.1 j)
    (fun C i => (collect_worker N P i (delivered i) (junk i) C).2)
    (List.range P) (fun _ => false, zeroM)

/-- When the pipe delivers exactly the expected element count, the read
loop reports no failure and `inbuf` is the delivered data itself. -/
theorem read_loop_full (expected : Nat) (delivered : List Int) (junk : Nat → Int)
    (h : delivered.length = expected) :
    (read_loop expected delivered junk).1 = false ∧
    (read_loop expected delivered junk).2 = delivered := by
  constructor
  · simp [read_loop, h]
  · unfold read_loop
    apply List.ext_getElem
    · simp [h]
    · intro n h1 h2
      simp only [List.getElem_map, List.getElem_range]
      exact List.getD_eq_getElem delivered _ h2

/-- Entry `idx` of `inbuf` after the read loop: the delivered element if
the stream got that far, the untouched buffer contents otherwise. -/
theorem read_loop_snd_getD (expected : Nat) (delivered : List Int) (junk : Nat → Int)
    (idx : Nat) (hidx : idx < expected) :
    (read_loop expected delivered junk).2.getD idx 0 = delivered.getD idx (junk idx) := by
  unfold read_loop
  rw [List.getD_eq_getElem _ _ (by simp [hidx]), List.getElem_map, List.getElem_range]

/-- The collection loop leaves rows owned by none of the listed workers
unchanged. -/
theorem collect_fold_frame (N P : Nat) (delivered : Nat → List Int) (junk : Nat → Nat → Int)
    (r c : Nat) :
    ∀ (l : List Nat) (C : Nat → Nat → Int),
      (∀ i ∈ l, r < (get_work_range N P i).1 ∨ (get_work_range N P i).2 ≤ r) →
      (l.foldl (fun C2 i => (collect_worker N P i (delivered i) (junk i) C2).2) C) r c = C r c
  | [], C, h => rfl
  | (x :: l), C, h => by
    rw [List.foldl_cons,
      collect_fold_frame N P delivered junk r c l _
        (fun i hi => h i (List.mem_cons_of_mem x hi))]
    simp only [collect_worker]
    exact copy_block_frame N _ _ _ C r c (h x (List.mem_cons_self x l))

/-- Master cell lemma for the coordinator's collection loop: the cell
`(r, c)` owned by worker `i` ends up holding entry `(r-start)*N + c` of
that worker's post-read-loop `inbuf`, whatever the other workers
delivered. -/
theorem collect_all_cell (N P : Nat) (delivered : Nat → List Int) (junk : Nat → Nat → Int)
    (i r c : Nat) (hi : i < P)
    (h1 : (get_work_range N P i).1 ≤ r) (h2 : r < (get_work_range N P i).2) (hc : c < N) :
    (collect_all N P delivered junk).2 r c
      = (read_loop (expected_count N P i) (delivered i) (junk i)).2.getD
          ((r - (get_work_range N P i).1) * N + c) 0 := by
  rw [collect_all_snd, range_split P i hi, List.foldl_append, List.foldl_cons]
  rw [collect_fold_frame N P delivered junk r c _ _
    (fun j hj => by
      rw [List.mem_range'_1] at hj
      left
      have : (get_work_range N P i).2 ≤ (get_work_range N P j).1 := by
        rw [get_work_range_eq N P i, get_work_range_eq N P j]
        exact block_start_mono N P hj.1
      omega)]
  simp only [collect_worker]
  exact copy_block_write N _ _ _ _ r c h1 h2 hc

/-- On the fault-free path every cell of the assembled matrix holds the
dot accumulation: the distributed computation refines the serial one for
any inputs and any `N`, `P > 0`. -/
theorem distributed_C_cell (N P : Nat) (hP : 0 < P) (A B : Nat → Nat → Int) (r c : Nat)
    (hr : r < N) (hc : c < N) :
    distributed_C N P A B r c = dot A B N r c := by
  obtain ⟨i, hi, h1, h2⟩ := exists_worker N P r hP hr
  unfold distributed_C
  rw [collect_all_cell N P _ _ i r c hi h1 h2 hc,
    (read_loop_full _ _ _ (worker_outbuf_length N P A B i)).2]
  exact worker_outbuf_getD N P A B i r c h1 h2 hc

/-- C1: for every pair of input matrices `A`, `B` (`N = 10`, `P = 4`),
the result matrix assembled by the coordinator from the workers' row
blocks is element-for-element identical to the serial reference
computation on the same inputs. -/
theorem distributed_matches_reference (A B : Nat → Nat → Int) (r c : Nat)
    (hr : r < 10) (hc : c < 10) :
    distributed_C 10 4 A B r c = multiply_reference 10 A B r c :=
  distributed_C_cell 10 4 (by omega) A B r c hr hc

theorem distributed_matches_reference_witness :
    3 < 10 ∧ 5 < 10 ∧
    distributed_C 10 4 A_init B_init 3 5 = multiply_reference 10 A_init B_init 3 5 :=
  ⟨by decide, by decide,
    distributed_matches_reference A_init B_init 3 5 (by decide) (by decide)⟩

/-- C4: for every row `r` in worker `i`'s assigned range and every column
`c` in `[0, N)`, both the serial reference entry and the worker's output
buffer entry equal `Σ_{k=0}^{N-1} A[r][k] * B[k][c]` in integer
arithmetic. -/
theorem kernel_computes_sum (N P : Nat) (A B : Nat → Nat → Int) (i r c : Nat)
    (h1 : (get_work_range N P i).1 ≤ r) (h2 : r < (get_work_range N P i).2) (hc : c < N) :
    multiply_reference N A B r c = (∑ k ∈ Finset.range N, A r k * B k c) ∧
    (worker_outbuf N P A B i).getD ((r - (get_work_range N P i).1) * N + c) 0
      = ∑ k ∈ Finset.range N, A r k * B k c := by
  constructor
  · exact dot_eq_sum A B N r c
  · rw [worker_outbuf_getD N P A B i r c h1 h2 hc]
    exact dot_eq_sum A B N r c

theorem kernel_computes_sum_witness :
    (get_work_range 10 4 1).1 ≤ 4 ∧ 4 < (get_work_range 10 4 1).2 ∧ 7 < 10 ∧
    (multiply_reference 10 A_init B_init 4 7
        = (∑ k ∈ Finset.range 10, A_init 4 k * B_init k 7) ∧
      (worker_outbuf 10 4 A_init B_init 1).getD ((4 - (get_work_range 10 4 1).1) * 10 + 7) 0
        = ∑ k ∈ Finset.range 10, A_init 4 k * B_init k 7) :=
  ⟨by decide, by decide, by decide,
    kernel_computes_sum 10 4 A_init B_init 1 4 7 (by decide) (by decide) (by decide)⟩

/-- C5: the result verifier scans all `N*N` positions; it returns the
success code `0` exactly when `C` and `C_ref` agree at every position,
and the failure code `1` (via the early return at the first mismatch)
exactly when some position differs. -/
theorem compare_results_spec (N : Nat) (C Cr : Nat → Nat → Int) :
    (compare_results N C Cr = 0 ↔ ∀ i, i < N → ∀ j, j < N → C i j = Cr i j) ∧
    (compare_results N C Cr = 1 ↔ ∃ i, i < N ∧ ∃ j, j < N ∧ C i j ≠ Cr i j) := by
  have hiff : ((List.range N).any (fun i => (List.range N).any (fun j => C i j != Cr i j)) = true)
      ↔ ∃ i, i < N ∧ ∃ j, j < N ∧ C i j ≠ Cr i j := by
    simp [List.mem_range, bne_iff_ne]
  unfold compare_results
  by_cases h : ∃ i, i < N ∧ ∃ j, j < N ∧ C i j ≠ Cr i j
  · rw [if_pos (hiff.mpr h)]
    obtain ⟨i, hi, j, hj, hne⟩ := h
    constructor
    · exact ⟨fun h10 => absurd h10 (by omega), fun hall => absurd (hall i hi j hj) hne⟩
    · exact ⟨fun _ => ⟨i, hi, j, hj, hne⟩, fun _ => rfl⟩
  · rw [if_neg (fun hx => h (hiff.mp hx))]
    constructor
    · refine ⟨fun _ i hi j hj => ?_, fun _ => rfl⟩
      by_contra hne
      exact h ⟨i, hi, j, hj, hne⟩
    · exact ⟨fun h01 => absurd h01 (by omega), fun hx => absurd hx h⟩

/-- C9: the coordinator's deserialization of worker `i`'s received block
writes only the rows `start..end-1` assigned to worker `i`: every cell in
a row outside that range is unchanged by the copy step.  (The matrices
`A`, `B` and `C_ref` are not inputs of the copy step at all, so they are
unchanged by construction.) -/
theorem collect_worker_frame (N P i : Nat) (delivered : List Int) (junk : Nat → Int)
    (C : Nat → Nat → Int) (r c : Nat)
    (h : r < (get_work_range N P i).1 ∨ (get_work_range N P i).2 ≤ r) :
    (collect_worker N P i delivered junk C).2 r c = C r c := by
  simp only [collect_worker]
  exact copy_block_frame N _ _ _ C r c h

theorem collect_worker_frame_witness :
    (9 < (get_work_range 10 4 1).1 ∨ (get_work_range 10 4 1).2 ≤ 9) ∧
    (collect_worker 10 4 1 (worker_outbuf 10 4 A_init B_init 1) (fun _ => 0) zeroM).2 9 2
      = zeroM 9 2 :=
  ⟨by decide,
    collect_worker_frame 10 4 1 (worker_outbuf 10 4 A_init B_init 1) (fun _ => 0) zeroM 9 2
      (by decide)⟩

/-- The failure flag recorded for worker `j` by the collection loop is
exactly the read loop's short-count test, independent of the matrix
threading. -/
theorem collect_all_fst_aux (N P : Nat) (delivered : Nat → List Int) (junk : Nat → Nat → Int) :
    ∀ (l : List Nat) (p : (Nat → Bool) × (Nat → Nat → Int)) (j : Nat),
      (l.foldl (fun (acc : (Nat → Bool) × (Nat → Nat → Int)) (i : Nat) =>
        (fun j2 => if j2 = i then (collect_worker N P i (delivered i) (junk i) acc.2).1
          else acc.1 j2,
         (collect_worker N P i (delivered i) (junk i) acc.2).2)) p).1 j
      = if j ∈ l then decide ((delivered j).length < expected_count N P j) else p.1 j
  | [], p, j => by simp
  | (x :: l), p, j => by
    rw [List.foldl_cons, collect_all_fst_aux N P delivered junk l _ j]
    by_cases hjl : j ∈ l
    · rw [if_pos hjl, if_pos (List.mem_cons_of_mem x hjl)]
    · rw [if_neg hjl]
      by_cases hx : j = x
      · subst hx
        rw [if_pos (List.mem_cons_self j l)]
        simp [collect_worker, read_loop, expected_count]
      · rw [if_neg (by simp [List.mem_cons, hx, hjl])]
        simp [hx]

theorem collect_all_fst (N P j : Nat) (hj : j < P) (delivered : Nat → List Int)
    (junk : Nat → Nat → Int) :
    (collect_all N P delivered junk).1 j
      = decide ((delivered j).length < expected_count N P j) := by
  unfold collect_all
  rw [collect_all_fst_aux N P delivered junk (List.range P) _ j,
    if_pos (List.mem_range.mpr hj)]

/-- C7: if worker `i`'s pipe delivers fewer elements than the expected
count, the coordinator reports a collection failure for that worker's row
block (its flag is set), still collects every other worker's block
(full-delivery workers' cells are correct), and does not silently
zero-fill: the short worker's unread positions keep the prior buffer
contents `junk`, so the shortfall surfaces only through the final
verification. -/
theorem short_transfer_reported (N P i : Nat) (A B : Nat → Nat → Int)
    (delivered : Nat → List Int) (junk : Nat → Nat → Int)
    (hi : i < P)
    (hshort : (delivered i).length < expected_count N P i)
    (hfull : ∀ j, j < P → j ≠ i → delivered j = worker_outbuf N P A B j) :
    (collect_all N P delivered junk).1 i = true ∧
    (∀ j, j < P → j ≠ i → ∀ r c,
      (get_work_range N P j).1 ≤ r → r < (get_work_range N P j).2 → c < N →
      (collect_all N P delivered junk).2 r c = dot A B N r c) ∧
    (∀ r c, (get_work_range N P i).1 ≤ r → r < (get_work_range N P i).2 → c < N →
      (delivered i).length ≤ (r - (get_work_range N P i).1) * N + c →
      (collect_all N P delivered junk).2 r c
        = junk i ((r - (get_work_range N P i).1) * N + c)) := by
  refine ⟨?_, ?_, ?_⟩
  · rw [collect_all_fst N P i hi delivered junk]
    exact decide_eq_true hshort
  · intro j hj hji r c h1 h2 hc
    rw [collect_all_cell N P delivered junk j r c hj h1 h2 hc, hfull j hj hji,
      (read_loop_full _ _ _ (worker_outbuf_length N P A B j)).2]
    exact worker_outbuf_getD N P A B j r c h1 h2 hc
  · intro r c h1 h2 hc hafter
    rw [collect_all_cell N P delivered junk i r c hi h1 h2 hc]
    have hidx : (r - (get_work_range N P i).1) * N + c < expected_count N P i := by
      unfold expected_count
      calc (r - (get_work_range N P i).1) * N + c
          < (r - (get_work_range N P i).1) * N + N := by omega
        _ = (r - (get_work_range N P i).1 + 1) * N := by rw [Nat.succ_mul]
        _ ≤ ((get_work_range N P i).2 - (get_work_range N P i).1) * N :=
            Nat.mul_le_mul_right N (by omega)
    rw [read_loop_snd_getD _ _ _ _ hidx, List.getD_eq_default _ _ hafter]

theorem short_transfer_reported_witness :
    0 < 1 ∧
    (([] : List Int).length < expected_count 1 1 0) ∧
    (∀ j, j < 1 → j ≠ 0 →
      (fun _ => ([] : List Int)) j = worker_outbuf 1 1 A_init B_init j) ∧
    ((collect_all 1 1 (fun _ => ([] : List Int)) (fun _ _ => 7)).1 0 = true ∧
    (∀ j, j < 1 → j ≠ 0 → ∀ r c,
      (get_work_range 1 1 j).1 ≤ r → r < (get_work_range 1 1 j).2 → c < 1 →
      (collect_all 1 1 (fun _ => ([] : List Int)) (fun _ _ => 7)).2 r c
        = dot A_init B_init 1 r c) ∧
    (∀ r c, (get_work_range 1 1 0).1 ≤ r → r < (get_work_range 1 1 0).2 → c < 1 →
      (([] : List Int)).length ≤ (r - (get_work_range 1 1 0).1) * 1 + c →
      (collect_all 1 1 (fun _ => ([] : List Int)) (fun _ _ => 7)).2 r c
        = (fun (_ idx : Nat) => (7 : Int)) 0 ((r - (get_work_range 1 1 0).1) * 1 + c))) :=
  ⟨by decide, by decide, by intro j hj hji; omega,
    short_transfer_reported 1 1 0 A_init B_init (fun _ => ([] : List Int)) (fun _ _ => 7)
      (by decide) (by decide) (by intro j hj hji; omega)⟩

/-- C8: a worker assigned a zero-length range (`start = end`, possible
when `P > N`) has an empty output buffer, its write loop performs zero
iterations and reports no failure, the coordinator's read loop for it is
immediately satisfied (zero elements expected, failure flag false), and
the copy step leaves the whole matrix unchanged. -/
theorem zero_length_range_ok (N P i : Nat) (A B : Nat → Nat → Int)
    (accept : Nat → Nat) (junk : Nat → Int) (C : Nat → Nat → Int)
    (hz : (get_work_range N P i).1 = (get_work_range N P i).2) :
    (worker_outbuf N P A B i).length = 0 ∧
    write_loop accept 0 (worker_outbuf N P A B i).length = false ∧
    (collect_worker N P i (worker_outbuf N P A B i) junk C).1 = false ∧
    (∀ r c, (collect_worker N P i (worker_outbuf N P A B i) junk C).2 r c = C r c) := by
  have hsub : (get_work_range N P i).2 - (get_work_range N P i).1 = 0 := by omega
  have hlen : (worker_outbuf N P A B i).length = 0 := by
    rw [worker_outbuf_length]
    unfold expected_count
    rw [hsub, Nat.zero_mul]
  refine ⟨hlen, ?_, ?_, ?_⟩
  · rw [hlen, write_loop]
    simp
  · simp [collect_worker, read_loop, hsub]
  · intro r c
    simp only [collect_worker]
    exact copy_block_frame N _ _ _ C r c (by omega)

theorem zero_length_range_ok_witness :
    ((get_work_range 2 4 2).1 = (get_work_range 2 4 2).2) ∧
    ((worker_outbuf 2 4 A_init B_init 2).length = 0 ∧
    write_loop (fun _ => 1) 0 (worker_outbuf 2 4 A_init B_init 2).length = false ∧
    (collect_worker 2 4 2 (worker_outbuf 2 4 A_init B_init 2) (fun _ => 3) zeroM).1 = false ∧
    (∀ r c,
      (collect_worker 2 4 2 (worker_outbuf 2 4 A_init B_init 2) (fun _ => 3) zeroM).2 r c
        = zeroM r c)) :=
  ⟨by decide,
    zero_length_range_ok 2 4 2 A_init B_init (fun _ => 1) (fun _ => 3) zeroM (by decide)⟩

/-- C6: with `N = 10`, `P = 4` the partitioner yields exactly the ranges
`[0,3) [3,6) [6,8) [8,10)` (sizes 3,3,2,2), and with `A[i][j] = i+j+1`,
`B[i][j] = 2 if i = j else 1` the distributed result equals the serial
result at every cell and the verifier reports success (code `0`). -/
theorem concrete_scenario_N10_P4 :
    (get_work_range 10 4 0 = (0, 3) ∧ get_work_range 10 4 1 = (3, 6) ∧
      get_work_range 10 4 2 = (6, 8) ∧ get_work_range 10 4 3 = (8, 10)) ∧
    (∀ r, r < 10 → ∀ c, c < 10 →
      distributed_C 10 4 A_init B_init r c = multiply_reference 10 A_init B_init r c) ∧
    compare_results 10 (distributed_C 10 4 A_init B_init)
      (multiply_reference 10 A_init B_init) = 0 := by
  decide

/-- C10: with the concrete initialization and `N = 10`, every cell of the
distributed result and of the reference is the dot accumulation; that
accumulation is nonnegative and at most `380`, far inside 32-bit signed
range, and the 32-bit wraparound accumulator `dot32` computes exactly the
same value as the unbounded one, so no overflow occurs despite the spec
assuming a 64-bit accumulator. -/
theorem no_overflow_concrete (r c : Nat) (hr : r < 10) (hc : c < 10) :
    distributed_C 10 4 A_init B_init r c = dot A_init B_init 10 r c ∧
    multiply_reference 10 A_init B_init r c = dot A_init B_init 10 r c ∧
    dot32 A_init B_init 10 r c = dot A_init B_init 10 r c ∧
    0 ≤ dot A_init B_init 10 r c ∧ dot A_init B_init 10 r c ≤ 380 := by
  refine ⟨distributed_C_cell 10 4 (by omega) A_init B_init r c hr hc, rfl, ?_⟩
  have h : ∀ r2, r2 < 10 → ∀ c2, c2 < 10 →
      (dot32 A_init B_init 10 r2 c2 = dot A_init B_init 10 r2 c2 ∧
       0 ≤ dot A_init B_init 10 r2 c2 ∧ dot A_init B_init 10 r2 c2 ≤ 380) := by decide
  exact h r hr c hc

theorem no_overflow_concrete_witness :
    9 < 10 ∧ 9 < 10 ∧
    (distributed_C 10 4 A_init B_init 9 9 = dot A_init B_init 10 9 9 ∧
    multiply_reference 10 A_init B_init 9 9 = dot A_init B_init 10 9 9 ∧
    dot32 A_init B_init 10 9 9 = dot A_init B_init 10 9 9 ∧
    0 ≤ dot A_init B_init 10 9 9 ∧ dot A_init B_init 10 9 9 ≤ 380) :=
  ⟨by decide, by decide, no_overflow_concrete 9 9 (by decide) (by decide)⟩

end Matmul
